import Mathlib

/-!
Verification development for the Bulgarian phishing-domain detector
(`detection/bg-phishing-detector.py`).  Domains are modelled as `List Char`;
each Python function is translated into an executable Lean definition, and
the testable properties of the specification are settled as theorems below.

Modelling notes, applying throughout:
* Python `str.lower()` is modelled by ASCII lowercasing (`Char.toLower`);
  all registry entries and separators are ASCII, and non-ASCII characters
  relevant here (lower-case Cyrillic/Greek homoglyphs) are fixed by both.
* Regex character classes `\d` and `[a-z]` are modelled as the ASCII digit
  and letter ranges the patterns are written for.
-/

namespace BgPhish

/-! ### Basic string operations -/

/-- Lower-case a domain string, character by character (Python `str.lower()`). -/
def lowerList (l : List Char) : List Char := l.map Char.toLower

/-- Strip a single leading `www.` label (Python `startswith('www.')` + slice). -/
def stripWWW (l : List Char) : List Char :=
  if "www.".toList.isPrefixOf l then l.drop 4 else l

/-- The lower-cased, `www.`-stripped view every detector works on. -/
def normDomain (d : List Char) : List Char := stripWWW (lowerList d)

/-- Separator class of `re.split(r'[.\-]', ...)`. -/
def isSepChar (c : Char) : Bool := c = '.' || c = '-'

/-- Split on a character class, keeping empty segments, exactly like
`re.split` / `str.split` with a single-char class. -/
def splitOnPred (p : Char → Bool) : List Char → List (List Char)
  | [] => [[]]
  | c :: rest =>
    match splitOnPred p rest with
    | [] => [[]]
    | s :: ss => if p c then [] :: s :: ss else (c :: s) :: ss

/-- `re.split(r'[.\-]', domain)`: the "labels" of a domain. -/
def splitSep (l : List Char) : List (List Char) := splitOnPred isSepChar l

/-- `domain.split('.')`. -/
def splitDots (l : List Char) : List (List Char) := splitOnPred (fun c => c = '.') l

/-- Absolute difference of two lengths (Python `abs(len a - len b)`). -/
def natDiff (a b : Nat) : Nat := if a ≤ b then b - a else a - b

/-- ASCII digit test (`\d` on the inputs this program handles). -/
def isDigitChar (c : Char) : Bool := '0' ≤ c && c ≤ '9'

/-- ASCII lower-case letter test (`[a-z]`). -/
def isLowerAlphaChar (c : Char) : Bool := 'a' ≤ c && c ≤ 'z'

/-- Count the leading characters satisfying `p` and return the remainder. -/
def takeWhileCount (p : Char → Bool) : List Char → Nat × List Char
  | [] => (0, [])
  | c :: rest =>
    if p c then
      let r := takeWhileCount p rest
      (r.1 + 1, r.2)
    else (0, c :: rest)

/-- Does `p` hold of some suffix of the list?  This is the position scan of
`re.search`: a pattern matches the string iff it matches at some start
position, i.e. at the head of some suffix. -/
def anySuffix (p : List Char → Bool) : List Char → Bool
  | [] => p []
  | c :: rest => p (c :: rest) || anySuffix p rest

/-- Python substring test `needle in hay`: `needle` is a prefix of some
suffix of `hay`. -/
def isSubstring (needle : List Char) : List Char → Bool
  | [] => needle.isEmpty
  | c :: rest => needle.isPrefixOf (c :: rest) || isSubstring needle rest

/-- Python `str.strip()` whitespace set (the characters it removes). -/
def isPySpace (c : Char) : Bool :=
  c = ' ' || c = '\t' || c = '\n' || c = '\r' || c = '\x0b' || c = '\x0c'

/-- Python `str.strip()`. -/
def pyStrip (l : List Char) : List Char :=
  ((l.dropWhile isPySpace).reverse.dropWhile isPySpace).reverse

/-! ### Static registries (module-level configuration lists) -/

/-- `WHITELISTED_DOMAINS`. -/
def WHITELISTED_DOMAINS : List (List Char) :=
  ["econt.com", "econt.bg", "speedy.bg", "intime.bg", "interlogistica.bg",
   "olx.bg", "bgpost.bg", "bulgariapost.bg", "samedaybg.com", "boxnow.bg",
   "cityexpress.bg", "expressone.bg", "sameday.bg", "evropat.bg", "dhl.bg",
   "easypay.bg", "epay.bg", "borica.bg", "fastpay.bg"].map String.toList

/-- `BRAND_KEYWORDS`. -/
def BRAND_KEYWORDS : List (List Char) :=
  ["econt", "speedy", "bulgariapost", "bgpost", "bg-post", "olx", "dhl",
   "sameday", "samedaybg", "evropat", "boxnow", "boxnowbg", "cityexpress",
   "cityexpressbg", "expressone", "expressonebg", "intime", "interlogistica",
   "easypay", "epay", "borica", "fastpay"].map String.toList

/-- `TRANSACTION_KEYWORDS`. -/
def TRANSACTION_KEYWORDS : List (List Char) :=
  ["tracking", "delivery", "shipment", "parcel", "payment", "secure-pay",
   "pay-now", "invoice", "confirm", "verify", "account", "login", "update",
   "suspended", "tax", "fee", "customer-center", "klient", "pratka",
   "dostavka", "usluga"].map String.toList

/-- `GEO_INDICATORS`. -/
def GEO_INDICATORS : List (List Char) :=
  [".bg", "bulgaria", "bg-", "-bg"].map String.toList

/-- `SUSPICIOUS_TLDS`. -/
def SUSPICIOUS_TLDS : List (List Char) :=
  [".cfd", ".tk", ".ml", ".ga", ".cf", ".gq", ".top", ".xyz", ".club",
   ".online", ".site", ".space", ".click", ".link", ".live", ".icu",
   ".buzz", ".cam", ".rest", ".store", ".tech", ".website", ".world",
   ".pw", ".cc", ".sbs"].map String.toList

/-- `FREE_HOSTING_SUFFIXES`. -/
def FREE_HOSTING_SUFFIXES : List (List Char) :=
  [".web.app", ".firebaseapp.com", ".herokuapp.com", ".pages.dev",
   ".netlify.app", ".vercel.app", ".onrender.com", ".render.com",
   ".fly.dev", ".surge.sh", ".gitlab.io", ".github.io", ".repl.co",
   ".replit.dev", ".replit.app", ".glitch.me", ".cyclic.app",
   ".railway.app", ".deta.dev", ".azurestaticapps.net", ".amplifyapp.com",
   ".cloudflare.com"].map String.toList

/-- `TARGET_SUFFIXES = FREE_HOSTING_SUFFIXES + SUSPICIOUS_TLDS`. -/
def TARGET_SUFFIXES : List (List Char) := FREE_HOSTING_SUFFIXES ++ SUSPICIOUS_TLDS

/-- `INFRASTRUCTURE_PATTERNS`. -/
def INFRASTRUCTURE_PATTERNS : List (List Char) :=
  [".postgres.render.com", ".redis.render.com", ".internal.render.com",
   "replica-", ".rds.amazonaws.com", ".elb.amazonaws.com",
   ".elasticache.amazonaws.com", ".drive.amazonaws.com", "kms.amazonaws.com",
   "s3.amazonaws.com", "s3-deprecated", "content-eu.drive",
   "content-jp.drive", ".database.windows.net", ".redis.cache.windows.net",
   ".workers.dev", "--deploy-preview-", "preview.vercel.app",
   "bgptools"].map String.toList

/-! ### Whitelist helpers -/

/-- `is_whitelisted`: exact match or strict (dot-qualified) subdomain of a
whitelist entry, on the lower-cased `www.`-stripped domain. -/
def is_whitelisted (domain : List Char) : Bool :=
  let domain_lower := normDomain domain
  WHITELISTED_DOMAINS.any fun w =>
    domain_lower == w || ('.' :: w).isSuffixOf domain_lower

/-- `is_infrastructure_domain`: any infrastructure pattern occurs as a
substring of the lower-cased domain. -/
def is_infrastructure_domain (domain : List Char) : Bool :=
  INFRASTRUCTURE_PATTERNS.any fun p => isSubstring p (lowerList domain)

/-! ### Brand matcher (`contains_brand_impersonation`) -/

/-- One brand against the nine boundary regexes
`^b\.  ^b-  ^b$  \.b\.  \.b-  \.b$  -b\.  -b-  -b$`
of `contains_brand_impersonation` (the brand strings are regex-literal).
Without `re.MULTILINE`, `^` matches only at the start of the string, while
`$` matches at the end of the string and also just before a newline that
ends the string, so each `$`-anchored pattern has a second alternative
accepting a single trailing newline. -/
def brandBoundaryMatch (brand check : List Char) : Bool :=
  (brand ++ ['.']).isPrefixOf check ||
  (brand ++ ['-']).isPrefixOf check ||
  (check == brand || check == brand ++ ['\n']) ||
  isSubstring ('.' :: (brand ++ ['.'])) check ||
  isSubstring ('.' :: (brand ++ ['-'])) check ||
  (('.' :: brand).isSuffixOf check ||
    ('.' :: (brand ++ ['\n'])).isSuffixOf check) ||
  isSubstring ('-' :: (brand ++ ['.'])) check ||
  isSubstring ('-' :: (brand ++ ['-'])) check ||
  (('-' :: brand).isSuffixOf check ||
    ('-' :: (brand ++ ['\n'])).isSuffixOf check)

/-- Body of `contains_brand_impersonation` on the already-normalized domain:
each registered brand is appended (once) if any boundary pattern matches. -/
def cbiOn (check : List Char) : Bool × List (List Char) :=
  let matched := BRAND_KEYWORDS.filter fun b => brandBoundaryMatch b check
  (!matched.isEmpty, matched)

/-- `contains_brand_impersonation(domain)`. -/
def contains_brand_impersonation (domain : List Char) : Bool × List (List Char) :=
  cbiOn (normDomain domain)

/-! ### Homoglyph detection -/

/-- `HOMOGLYPH_MAP`, in the source's (insertion) order. -/
def HOMOGLYPH_MAP : List (Char × List Char) :=
  [ ('a', ['а', 'ạ', 'ą', 'ά', 'α']),
    ('c', ['с', 'ϲ', 'ć', 'ċ']),
    ('e', ['е', 'ė', 'ę', 'ё', 'έ', 'ε']),
    ('i', ['і', 'ı', 'í', 'ì', 'ï', 'ι']),
    ('o', ['о', 'ο', 'ọ', 'ó', 'ò', '0']),
    ('p', ['р', 'ρ', 'þ']),
    ('s', ['ѕ', 'ś', 'ş']),
    ('t', ['т', 'τ']),
    ('u', ['υ', 'ú', 'ù']),
    ('x', ['х', 'χ']),
    ('y', ['у', 'ү', 'ý']) ]

/-- One character of `normalize_homoglyphs`: the first map entry whose
homoglyph list contains the character wins; otherwise `0` falls back to
`o` and anything else is kept. -/
def normalizeChar (c : Char) : Char :=
  match HOMOGLYPH_MAP.find? (fun p => p.2.contains c) with
  | some p => p.1
  | none => if c = '0' then 'o' else c

/-- `normalize_homoglyphs`. -/
def normalize_homoglyphs (text : List Char) : List Char := text.map normalizeChar

/-- `all(ord(c) < 128 for c in part)`. -/
def allAscii (l : List Char) : Bool := l.all fun c => c.toNat < 128

/-- `part.replace('0', 'o')`. -/
def replaceZero (l : List Char) : List Char :=
  l.map fun c => if c = '0' then 'o' else c

/-- Does this label trigger a homoglyph hit for this brand?  Mirrors the
body of the inner loop of `detect_homoglyphs`: length guards, then the
non-ASCII normalization check, then the digit-zero check. -/
def homoglyphPartHit (brand part : List Char) : Bool :=
  if part.length < 3 || natDiff part.length brand.length > 2 then false
  else
    (!allAscii part &&
      (normalize_homoglyphs part == brand ||
        (4 ≤ (normalize_homoglyphs part).length &&
          isSubstring (normalize_homoglyphs part) brand))) ||
    (part.contains '0' && replaceZero part == brand)

/-- Body of `detect_homoglyphs` on the already-normalized domain: for each
brand the first hitting label is appended (the loop breaks after a hit). -/
def homoglyphsOn (check : List Char) (brands : List (List Char)) :
    Bool × List (List Char) :=
  let found := brands.filterMap fun b => (splitSep check).find? (homoglyphPartHit b)
  (!found.isEmpty, found)

/-- `detect_homoglyphs(domain, brands)`. -/
def detect_homoglyphs (domain : List Char) (brands : List (List Char)) :
    Bool × List (List Char) :=
  homoglyphsOn (normDomain domain) brands

/-! ### Levenshtein distance and typosquatting -/

/-- Inner loop of `levenshtein_distance`: extend the current row one cell at
a time.  `prev` is aligned so its head is `previous_row[j]`; `curj` is
`current_row[j]`. -/
def levRowAux (c1 : Char) : List Char → List Nat → Nat → List Nat
  | [], _, _ => []
  | c2 :: s2, prev, curj =>
    match prev with
    | [] => []
    | pj :: prest =>
      let insertions := prest.headD 0 + 1
      let deletions := curj + 1
      let substitutions := pj + (if c1 = c2 then 0 else 1)
      let v := min insertions (min deletions substitutions)
      v :: levRowAux c1 s2 prest v

/-- One outer-loop iteration of `levenshtein_distance`: build
`current_row` from `previous_row`. -/
def levStep (c1 : Char) (s2 : List Char) (prev : List Nat) : List Nat :=
  let cur0 := prev.headD 0 + 1
  cur0 :: levRowAux c1 s2 prev cur0

/-- The outer loop of `levenshtein_distance` over the characters of `s1`. -/
def levLoop (s2 : List Char) : List Char → List Nat → List Nat
  | [], prev => prev
  | c1 :: s1, prev => levLoop s2 s1 (levStep c1 s2 prev)

/-- `levenshtein_distance` after the argument swap, i.e. the body from the
`len(s2) == 0` check on (`previous_row[-1]` of the final row). -/
def levenshtein_body (s1 s2 : List Char) : Nat :=
  if s2.length = 0 then s1.length
  else (levLoop s2 s1 (List.range (s2.length + 1))).getLastD 0

/-- `levenshtein_distance(s1, s2)`: the function first swaps its arguments
when `len(s1) < len(s2)` (a single self-call), then runs the row dynamic
program. -/
def levenshtein_distance (s1 s2 : List Char) : Nat :=
  if s1.length < s2.length then levenshtein_body s2 s1 else levenshtein_body s1 s2

/-- Checks some adjacent position holds a mirrored character pair
(`original[i] == typo[i+1] and original[i+1] == typo[i]`). -/
def hasAdjacentSwap : List Char → List Char → Bool
  | a :: b :: orig, c :: d :: typo =>
    (a = d && b = c) || hasAdjacentSwap (b :: orig) (d :: typo)
  | _, _ => false

/-- `classify_typo_type(original, typo)`. -/
def classify_typo_type (original typo : List Char) : List Char :=
  if typo.length < original.length then "missing_char".toList
  else if original.length < typo.length then "extra_char".toList
  else
    let differences := ((original.zip typo).filter fun p => p.1 ≠ p.2).length
    if differences = 2 && hasAdjacentSwap original typo then
      "swapped_chars".toList
    else "substitution".toList

/-- One recorded typosquatting entry
(`{'brand': ..., 'typo': ..., 'distance': ..., 'type': ...}`). -/
structure TypoMatch where
  brand : List Char
  typo : List Char
  distance : Nat
  kind : List Char
deriving DecidableEq

/-- The inner-loop body of `detect_typosquatting` for one brand and one
label: length guard, edit distance, thresholds, and classification. -/
def typoPartEntry (brand part : List Char) : Option TypoMatch :=
  if part.length < 3 then none
  else
    let distance := levenshtein_distance part brand
    if 0 < distance && distance ≤ 2 && natDiff part.length brand.length ≤ 2 &&
        part != brand then
      some ⟨brand, part, distance, classify_typo_type brand part⟩
    else none

/-- Body of `detect_typosquatting` on the already-normalized domain: brands
shorter than 4 characters are skipped, every matching (brand, label) pair
appends an entry (no break). -/
def typosOn (check : List Char) (brands : List (List Char)) :
    Bool × List TypoMatch :=
  let detected := brands.flatMap fun b =>
    if b.length < 4 then [] else (splitSep check).filterMap (typoPartEntry b)
  (!detected.isEmpty, detected)

/-- `detect_typosquatting(domain, brands)`. -/
def detect_typosquatting (domain : List Char) (brands : List (List Char)) :
    Bool × List TypoMatch :=
  typosOn (normDomain domain) brands

/-! ### Context signals of `calculate_score`

Each signal is a function of the lower-cased `www.`-stripped domain
(`domain_lower` in the source); the loops with `break` become `find?`. -/

/-- Signal 4: first matching free-hosting suffix. -/
def freeHostHit (c : List Char) : Option (List Char) :=
  FREE_HOSTING_SUFFIXES.find? fun s => s.isSuffixOf c

/-- Signal 5: first matching suspicious TLD. -/
def tldHit (c : List Char) : Option (List Char) :=
  SUSPICIOUS_TLDS.find? fun t => t.isSuffixOf c

/-- Signal 6: first geographic indicator occurring as a substring. -/
def geoHit (c : List Char) : Option (List Char) :=
  GEO_INDICATORS.find? fun g => isSubstring g c

/-- Signal 7: first transaction keyword occurring as a substring. -/
def transHit (c : List Char) : Option (List Char) :=
  TRANSACTION_KEYWORDS.find? fun k => isSubstring k c

/-- Signal 8: `domain_lower.count('-')`. -/
def hyphenCount (c : List Char) : Nat := c.countP fun x => x = '-'

/-- Head of `re.search(r'-\d{3,}\.', ...)`: a hyphen, then at least three
digits, then a dot (the digit run the regex takes is maximal because a dot
is not a digit, so no other backtracking split can succeed). -/
def hyphenDigitsDotAt (l : List Char) : Bool :=
  match l with
  | '-' :: rest =>
    let r := takeWhileCount isDigitChar rest
    3 ≤ r.1 && (match r.2 with | '.' :: _ => true | _ => false)
  | _ => false

/-- Head of `re.search(r'\d{4,}\.', ...)`: at least four digits then a dot. -/
def digitsDotAt (l : List Char) : Bool :=
  let r := takeWhileCount isDigitChar l
  4 ≤ r.1 && (match r.2 with | '.' :: _ => true | _ => false)

/-- Signal 9: the numeric-suffix regexes. -/
def numericSuffixHit (c : List Char) : Bool :=
  anySuffix hyphenDigitsDotAt c || anySuffix digitsDotAt c

/-- Signal 10: `len(domain_lower.split('.')) >= 4`. -/
def subdomainStacking (c : List Char) : Bool := decide (4 ≤ (splitDots c).length)

/-- The consonant class of the entropy heuristic. -/
def isConsonantChar (c : Char) : Bool := "bcdfghjklmnpqrstvwxyz".toList.contains c

/-- Count maximal runs of `p`-characters of length at least `minLen`
(`len(re.findall(r'[class]{3,}', ...))`: each `findall` match consumes a
maximal run, and runs shorter than `minLen` cannot match anywhere inside).
`run` is the length of the run currently being consumed. -/
def countRunsGE (p : Char → Bool) (minLen : Nat) : List Char → Nat → Nat
  | [], run => if minLen ≤ run then 1 else 0
  | c :: rest, run =>
    if p c then countRunsGE p minLen rest (run + 1)
    else (if minLen ≤ run then 1 else 0) + countRunsGE p minLen rest 0

/-- `len(re.findall(r'[bcdfghjklmnpqrstvwxyz]{3,}', name))`. -/
def consonantClusters (l : List Char) : Nat := countRunsGE isConsonantChar 3 l 0

/-- One attempted match of `[a-z]+\d+[a-z]+|\d+[a-z]+\d+` at the head of the
list, returning the remainder after the (greedy) match.  The character
classes are disjoint, so each `+` consumes a maximal run and backtracking
cannot rescue a failed branch. -/
def tryMixed (l : List Char) : Option (List Char) :=
  match l with
  | [] => none
  | c :: _ =>
    if isLowerAlphaChar c then
      let r1 := takeWhileCount isLowerAlphaChar l
      let r2 := takeWhileCount isDigitChar r1.2
      let r3 := takeWhileCount isLowerAlphaChar r2.2
      if 1 ≤ r2.1 && 1 ≤ r3.1 then some r3.2 else none
    else if isDigitChar c then
      let r1 := takeWhileCount isDigitChar l
      let r2 := takeWhileCount isLowerAlphaChar r1.2
      let r3 := takeWhileCount isDigitChar r2.2
      if 1 ≤ r2.1 && 1 ≤ r3.1 then some r3.2 else none
    else none

/-- `re.findall` scan for the mixed letter/digit pattern: on a match resume
after it, otherwise advance one position.  `fuel` bounds the recursion; the
scan advances at least one character per step, so `l.length` fuel is exact. -/
def mixedCountAux : Nat → List Char → Nat
  | 0, _ => 0
  | _, [] => 0
  | fuel + 1, c :: rest =>
    match tryMixed (c :: rest) with
    | some r => 1 + mixedCountAux fuel r
    | none => mixedCountAux fuel rest

/-- `len(re.findall(r'[a-z]+\d+[a-z]+|\d+[a-z]+\d+', name))`. -/
def mixedAlnumCount (l : List Char) : Nat := mixedCountAux l.length l

/-- Signal 11: the entropy heuristic on the first dot-label. -/
def highEntropy (c : List Char) : Bool :=
  let domain_name := (splitDots c).headD []
  decide (10 < domain_name.length) &&
    (decide (2 ≤ consonantClusters domain_name) ||
      decide (2 ≤ mixedAlnumCount domain_name))

/-- TLD alternatives of the `.bg-XX.TLD` bonus regex. -/
def ABUSE_TLDS : List (List Char) :=
  ["cfd", "tk", "ml", "ga", "cf", "gq", "xyz", "online", "site", "click",
   "icu"].map String.toList

/-- After a `.bg-` occurrence: `[a-z]{2,4}` then `.` then one of the TLD
alternatives (the letter run is maximal since a dot is not a letter, and the
bounded quantifier cannot split it otherwise, so it must have length 2–4). -/
def abuseAfterBg (l : List Char) : Bool :=
  let r := takeWhileCount isLowerAlphaChar l
  2 ≤ r.1 && r.1 ≤ 4 &&
    (match r.2 with
     | '.' :: rest => ABUSE_TLDS.any fun t => t.isPrefixOf rest
     | _ => false)

/-- Head match of `\.bg-[a-z]{2,4}\.(cfd|tk|ml|ga|cf|gq|xyz|online|site|click|icu)`. -/
def abusePatAt (l : List Char) : Bool :=
  ".bg-".toList.isPrefixOf l && abuseAfterBg (l.drop 4)

/-- The `.bg-XX.TLD` Bulgaria-abuse bonus (`re.search` of the above). -/
def abuseHit (c : List Char) : Bool := anySuffix abusePatAt c

/-- The direct-impersonation regexes, each of the form `A-?B`. -/
def DIRECT_IMP_PATTERNS : List (List Char × List Char) :=
  [ ("econt".toList, "bg".toList), ("speedy".toList, "bg".toList),
    ("bgpost".toList, "bg".toList), ("olx".toList, "bg".toList),
    ("sameday".toList, "bg".toList), ("easypay".toList, "bg".toList),
    ("epay".toList, "bg".toList), ("borica".toList, "bg".toList),
    ("bg".toList, "econt".toList), ("bg".toList, "speedy".toList),
    ("bg".toList, "post".toList), ("bg".toList, "olx".toList) ]

/-- Direct-impersonation bonus: some pattern `A-?B` matches, i.e. `AB` or
`A-B` occurs as a substring. -/
def impHit (c : List Char) : Bool :=
  DIRECT_IMP_PATTERNS.any fun p =>
    isSubstring (p.1 ++ p.2) c || isSubstring (p.1 ++ '-' :: p.2) c

/-- The `has_bg_context` flag at the moment the penalty is decided.  The
source sets it in four places, in order: the geo indicator, the `.bg-XX.TLD`
bonus, the fallback `'bg' in domain_lower or 'bulgaria' in domain_lower`
(guarded by `not has_bg_context`, which cannot turn it off), and the
direct-impersonation bonus. -/
def hasBgContext (c : List Char) : Bool :=
  let b1 := (geoHit c).isSome
  let b2 := b1 || abuseHit c
  let b3 :=
    if b2 then b2
    else isSubstring "bg".toList c || isSubstring "bulgaria".toList c
  b3 || impHit c

/-- The refined-penalty condition: a brand-derived signal fired, there is no
Bulgarian context at all, and the direct-impersonation flag is absent. -/
def applyPenalty (c : List Char) : Bool :=
  ((cbiOn c).1 || (homoglyphsOn c BRAND_KEYWORDS).1 ||
      (typosOn c BRAND_KEYWORDS).1) &&
    !hasBgContext c && !impHit c

/-! ### Score aggregation (`calculate_score`) -/

/-- The `details` dictionary of `calculate_score`.  Keys the source only
adds conditionally (`bg_tld_abuse`, `direct_impersonation`,
`non_bg_context_penalty`) are Booleans here, `False` standing for "absent"
exactly as the source's `details.get(key, False)` reads them. -/
structure ScoreDetails where
  brand_keywords : List (List Char)
  transaction_keywords : List (List Char)
  geo_indicators : List (List Char)
  suspicious_tld : Option (List Char)
  free_hosting : Option (List Char)
  multiple_hyphens : Bool
  numeric_suffix : Bool
  subdomain_stacking : Bool
  high_entropy : Bool
  homoglyphs_detected : Bool
  homoglyphs_used : List (List Char)
  typosquatting_detected : Bool
  typosquatting_details : List TypoMatch
  bg_tld_abuse : Bool
  direct_impersonation : Bool
  non_bg_context_penalty : Bool
deriving DecidableEq

/-- The sum of the thirteen positive score contributions, in source order. -/
def posScore (c : List Char) : Int :=
  (if (cbiOn c).1 then 40 else 0) +
  (if (homoglyphsOn c BRAND_KEYWORDS).1 then 30 else 0) +
  (if (typosOn c BRAND_KEYWORDS).1 then 25 else 0) +
  (if (freeHostHit c).isSome then 25 else 0) +
  (if (tldHit c).isSome then 20 else 0) +
  (if (geoHit c).isSome then 15 else 0) +
  (if (transHit c).isSome then 10 else 0) +
  (if 2 ≤ hyphenCount c then 10 else 0) +
  (if numericSuffixHit c then 10 else 0) +
  (if subdomainStacking c then 10 else 0) +
  (if highEntropy c then 10 else 0) +
  (if abuseHit c then 10 else 0) +
  (if impHit c then 15 else 0)

/-- The accumulated score before clamping: the positive contributions minus
the one conditional 20-point penalty. -/
def rawScore (c : List Char) : Int :=
  posScore c - (if applyPenalty c then 20 else 0)

/-- The `details` record assembled by `calculate_score`.  Fields the source
assigns only when a signal fires get the signal's (empty / `none` / `false`)
value otherwise, which coincides with the dictionary's initial value. -/
def mkDetails (c : List Char) : ScoreDetails where
  brand_keywords := (cbiOn c).2
  transaction_keywords := (transHit c).toList
  geo_indicators := (geoHit c).toList
  suspicious_tld := tldHit c
  free_hosting := freeHostHit c
  multiple_hyphens := decide (2 ≤ hyphenCount c)
  numeric_suffix := numericSuffixHit c
  subdomain_stacking := subdomainStacking c
  high_entropy := highEntropy c
  homoglyphs_detected := (homoglyphsOn c BRAND_KEYWORDS).1
  homoglyphs_used := (homoglyphsOn c BRAND_KEYWORDS).2
  typosquatting_detected := (typosOn c BRAND_KEYWORDS).1
  typosquatting_details := (typosOn c BRAND_KEYWORDS).2
  bg_tld_abuse := abuseHit c
  direct_impersonation := impHit c
  non_bg_context_penalty := applyPenalty c

/-- `calculate_score` on the already-normalized domain, ending with
`score = min(max(score, 0), 100)`. -/
def calcOn (c : List Char) : Int × ScoreDetails :=
  (min (max (rawScore c) 0) 100, mkDetails c)

/-- `calculate_score(domain)`. -/
def calculate_score (domain : List Char) : Int × ScoreDetails :=
  calcOn (normDomain domain)

/-! ### Scan pipeline (per-domain admission decision of `scan_domains`) -/

/-- Outcome of the per-domain portion of the `scan_domains` loop, up to and
including the scoring call.  The stateful dedup against already-processed
domains and the post-scoring feed logic do not affect whether
`calculate_score` is invoked and are not modelled. -/
inductive ScanDecision where
  | skippedEmptyOrWildcard
  | skippedInfrastructure
  | skippedWhitelisted
  | skippedNotSuspicious
  | scored (score : Int) (details : ScoreDetails)
deriving DecidableEq

/-- Did the pipeline reach the scoring call? -/
def ScanDecision.isScored : ScanDecision → Bool
  | .scored _ _ => true
  | _ => false

/-- One iteration of the `scan_domains` processing loop for a candidate
`domain`, with `manual` the `MANUAL_CHECK_DOMAINS` override list: strip,
reject empties and wildcards, then the three admission filters, then score. -/
def scanStep (domain : List Char) (manual : List (List Char)) : ScanDecision :=
  let d := pyStrip domain
  if d.isEmpty || "*".toList.isPrefixOf d then .skippedEmptyOrWildcard
  else if is_infrastructure_domain d then .skippedInfrastructure
  else if is_whitelisted d then .skippedWhitelisted
  else if !manual.contains d && !(TARGET_SUFFIXES.any fun s => s.isSuffixOf d) then
    .skippedNotSuspicious
  else .scored (calculate_score d).1 (calculate_score d).2

/-! ### Helper lemmas -/

theorem isSubstring_iff (n h : List Char) : isSubstring n h = true ↔ n <:+: h := by
  induction h with
  | nil => simp [isSubstring, List.infix_nil]
  | cons c rest ih =>
    simp [isSubstring, ih, List.infix_cons_iff, List.isPrefixOf_iff_prefix]

set_option maxRecDepth 20000

/-! ### The claims -/

/-- C1: for every input domain string, `calculate_score` returns a score in
`[0, 100]`, whatever the raw signal sum or penalty would have been: the
final assignment is `score = min(max(score, 0), 100)`. -/
theorem calculate_score_in_range (d : List Char) :
    0 ≤ (calculate_score d).1 ∧ (calculate_score d).1 ≤ 100 := by
  have h : (calculate_score d).1 = min (max (rawScore (normDomain d)) 0) 100 := rfl
  rw [h]
  exact ⟨le_min (le_max_right _ _) (by norm_num), min_le_right _ _⟩

/-- C9: `levenshtein_distance` is non-negative (it computes in `Nat`), and
an empty argument on either side gives the other argument's length. -/
theorem levenshtein_distance_nonneg_empty (s1 s2 : List Char) :
    0 ≤ levenshtein_distance s1 s2 ∧
      levenshtein_distance [] s2 = s2.length ∧
      levenshtein_distance s1 [] = s1.length := by
  refine ⟨Nat.zero_le _, ?_, ?_⟩
  · cases s2 with
    | nil => rfl
    | cons c t => simp [levenshtein_distance, levenshtein_body]
  · simp [levenshtein_distance, levenshtein_body]

/-- C7: `calculate_score("econt-bg.tk")` scores 90 ≥ 70, with the
direct-impersonation flag set and no penalty: brand `econt` (+40),
suspicious TLD `.tk` (+20), geo indicator `-bg` (+15, Bulgarian context
present), direct impersonation (+15). -/
theorem econt_bg_tk_score :
    70 ≤ (calculate_score "econt-bg.tk".toList).1 ∧
    (calculate_score "econt-bg.tk".toList).1 = 90 ∧
    (calculate_score "econt-bg.tk".toList).2.direct_impersonation = true ∧
    (calculate_score "econt-bg.tk".toList).2.non_bg_context_penalty = false ∧
    (calculate_score "econt-bg.tk".toList).2.brand_keywords = ["econt".toList] ∧
    (calculate_score "econt-bg.tk".toList).2.suspicious_tld = some ".tk".toList ∧
    (calculate_score "econt-bg.tk".toList).2.geo_indicators = ["-bg".toList] ∧
    hasBgContext (normDomain "econt-bg.tk".toList) = true := by
  decide

/-- C3 counterexample: the registered brand `bg-post` is reported for the
domain `bg-post.cfd` although it is not a whole label of the `.`/`-`-split
of the domain (splitting by `-` cuts through that brand), so "reported iff
whole label after splitting by '.' and '-'" fails. -/
theorem brand_whole_label_cex :
    "bg-post".toList ∈ BRAND_KEYWORDS ∧
    "bg-post".toList ∈ (contains_brand_impersonation "bg-post.cfd".toList).2 ∧
    "bg-post".toList ∉ splitSep (normDomain "bg-post.cfd".toList) := by
  decide

/-- C4 counterexample: the label `0xn0` of `0xn0.tk` has length ≥ 3, is
within ±2 of the length of the registered brand `boxnow`, contains a
literal `0`, and its homoglyph-table normalization `oxno` has length ≥ 4
and is a substring of `boxnow` — yet `detect_homoglyphs` reports nothing,
because the substring clause is only reachable for labels containing a
non-ASCII character, and the `0`→`o` fallback demands exact equality. -/
theorem homoglyph_claim_cex :
    detect_homoglyphs "0xn0.tk".toList ["boxnow".toList] = (false, []) ∧
    "boxnow".toList ∈ BRAND_KEYWORDS ∧
    "0xn0".toList ∈ splitSep (normDomain "0xn0.tk".toList) ∧
    3 ≤ "0xn0".toList.length ∧
    natDiff "0xn0".toList.length "boxnow".toList.length ≤ 2 ∧
    "0xn0".toList.contains '0' = true ∧
    normalize_homoglyphs "0xn0".toList = "oxno".toList ∧
    4 ≤ (normalize_homoglyphs "0xn0".toList).length ∧
    normalize_homoglyphs "0xn0".toList <:+: "boxnow".toList := by
  decide

/-- C5 counterexample: against brand `speedy`, the equal-length label
`sqeedx` differs at exactly the two non-adjacent positions 1 and 5, so by
the claim its kind should be `substitution`; the code records
`swapped_chars`, because its adjacent-mirror scan also accepts the trivial
mirrored pair formed by the double letter `ee` at unchanged positions. -/
theorem typo_swap_kind_cex :
    (detect_typosquatting "sqeedx.tk".toList ["speedy".toList]).2 =
      [⟨"speedy".toList, "sqeedx".toList, 2, "swapped_chars".toList⟩] ∧
    (((List.range 6).filter fun i =>
        decide ("speedy".toList[i]? ≠ "sqeedx".toList[i]?)) = [1, 5]) ∧
    "swapped_chars".toList ≠ "substitution".toList := by
  decide

/-- C6 counterexample: on `spedy.spedy.cfd` the label `spedy` occurs twice,
and `detect_typosquatting` records the pair (`speedy`, `spedy`) once per
occurrence, so the result contains duplicate (brand, typo) entries. -/
theorem typosquat_dup_cex :
    ¬ (((detect_typosquatting "spedy.spedy.cfd".toList
          ["speedy".toList]).2.map fun e => (e.brand, e.typo)).Nodup) := by
  decide

/-- C10 counterexample: `wWw.a.b.tk` does not start with `www.`, yet
prepending `www.` changes the score (20 → 30): lower-casing happens before
the single `www.` strip, so the original domain is stripped to `a.b.tk`
(three dot-labels) while the prefixed one is stripped only to
`www.a.b.tk` (four dot-labels, +10 subdomain stacking). -/
theorem www_prefix_cex :
    ¬ ("www.".toList.isPrefixOf "wWw.a.b.tk".toList = true) ∧
    calculate_score ("www.".toList ++ "wWw.a.b.tk".toList) ≠
      calculate_score "wWw.a.b.tk".toList ∧
    (calculate_score ("www.".toList ++ "wWw.a.b.tk".toList)).1 = 30 ∧
    (calculate_score "wWw.a.b.tk".toList).1 = 20 := by
  decide

theorem hasBgContext_eq (c : List Char) :
    hasBgContext c =
      ((geoHit c).isSome || abuseHit c || isSubstring "bg".toList c ||
        isSubstring "bulgaria".toList c || impHit c) := by
  unfold hasBgContext
  rcases Bool.eq_false_or_eq_true (geoHit c).isSome with hg | hg <;>
  rcases Bool.eq_false_or_eq_true (abuseHit c) with ha | ha <;>
    simp [hg, ha]

/-- C2: the 20-point penalty is subtracted exactly once, if and only if a
brand, homoglyph or typosquat signal fired while no Bulgarian-context
signal fired (no geo indicator, no `bg`/`bulgaria` substring, no `.bg-XX`
abuse infix, no direct impersonation) and the direct-impersonation flag is
absent; the final score is the clamped sum of the positive weights minus
that single conditional subtraction. -/
theorem penalty_rule (d : List Char) :
    ((calculate_score d).2.non_bg_context_penalty = true ↔
      (((cbiOn (normDomain d)).1 = true ∨
          (homoglyphsOn (normDomain d) BRAND_KEYWORDS).1 = true ∨
          (typosOn (normDomain d) BRAND_KEYWORDS).1 = true) ∧
        ¬((geoHit (normDomain d)).isSome = true) ∧
        ¬(isSubstring "bg".toList (normDomain d) = true) ∧
        ¬(isSubstring "bulgaria".toList (normDomain d) = true) ∧
        ¬(abuseHit (normDomain d) = true) ∧
        ¬(impHit (normDomain d) = true))) ∧
    (calculate_score d).1 =
      min (max (posScore (normDomain d) -
          (if (calculate_score d).2.non_bg_context_penalty then 20 else 0)) 0) 100 := by
  constructor
  · have h1 : (calculate_score d).2.non_bg_context_penalty =
        applyPenalty (normDomain d) := rfl
    rw [h1]
    unfold applyPenalty
    rw [hasBgContext_eq]
    rcases Bool.eq_false_or_eq_true ((cbiOn (normDomain d)).1) with hA | hA <;>
    rcases Bool.eq_false_or_eq_true
      ((homoglyphsOn (normDomain d) BRAND_KEYWORDS).1) with hB | hB <;>
    rcases Bool.eq_false_or_eq_true
      ((typosOn (normDomain d) BRAND_KEYWORDS).1) with hC | hC <;>
    rcases Bool.eq_false_or_eq_true ((geoHit (normDomain d)).isSome) with hD | hD <;>
    rcases Bool.eq_false_or_eq_true
      (isSubstring "bg".toList (normDomain d)) with hE | hE <;>
    rcases Bool.eq_false_or_eq_true
      (isSubstring "bulgaria".toList (normDomain d)) with hF | hF <;>
    rcases Bool.eq_false_or_eq_true (abuseHit (normDomain d)) with hG | hG <;>
    rcases Bool.eq_false_or_eq_true (impHit (normDomain d)) with hH | hH <;>
      simp [hA, hB, hC, hD, hE, hF, hG, hH]
  · rfl

/-- C8: a candidate whose lower-cased `www.`-stripped form equals a
whitelist entry or is a strict subdomain of one makes `is_whitelisted`
true, and the `scan_domains` loop rejects it before the scoring call,
whatever the manual override list contains. -/
theorem whitelist_never_scored (d : List Char) (manual : List (List Char))
    (h : ∃ w ∈ WHITELISTED_DOMAINS,
      normDomain (pyStrip d) = w ∨
        ('.' :: w).isSuffixOf (normDomain (pyStrip d)) = true) :
    is_whitelisted (pyStrip d) = true ∧ (scanStep d manual).isScored = false := by
  have hw : is_whitelisted (pyStrip d) = true := by
    obtain ⟨w, hwmem, hcase⟩ := h
    unfold is_whitelisted
    refine List.any_eq_true.mpr ⟨w, hwmem, ?_⟩
    rcases hcase with hc | hc
    · simp [hc]
    · simp [hc]
  refine ⟨hw, ?_⟩
  simp only [scanStep]
  split_ifs with h1 h2 <;> rfl

/-- Witness for C8: the strict subdomain `mail.econt.bg` of the whitelist
entry `econt.bg` is whitelisted and never reaches scoring. -/
theorem whitelist_never_scored_witness :
    is_whitelisted (pyStrip "mail.econt.bg".toList) = true ∧
      (scanStep "mail.econt.bg".toList []).isScored = false :=
  whitelist_never_scored "mail.econt.bg".toList [] (by decide)

/-- C10 amended: prepending `www.` leaves `calculate_score` unchanged
(score and details) provided the lower-cased domain does not itself start
with `www.` — the source lower-cases before stripping, so the guard must
be stated on the lower-cased form. -/
theorem www_prefix_invariant (d : List Char)
    (h : ¬ ("www.".toList.isPrefixOf (lowerList d) = true)) :
    calculate_score ("www.".toList ++ d) = calculate_score d := by
  unfold calculate_score normDomain
  have h1 : lowerList ("www.".toList ++ d) = "www.".toList ++ lowerList d := by
    unfold lowerList
    rw [List.map_append]
    congr 1
  have h2 : stripWWW ("www.".toList ++ lowerList d) = lowerList d := by
    unfold stripWWW
    have hpre := List.isPrefixOf_iff_prefix.mpr
      (List.prefix_append "www.".toList (lowerList d))
    rw [if_pos hpre]
    exact List.drop_left "www.".toList (lowerList d)
  have h3 : stripWWW (lowerList d) = lowerList d := by
    unfold stripWWW
    exact if_neg h
  rw [h1, h2, h3]

/-- Witness for C10 amended at `econt-bg.tk`. -/
theorem www_prefix_invariant_witness :
    ¬ ("www.".toList.isPrefixOf (lowerList "econt-bg.tk".toList) = true) ∧
      calculate_score ("www.".toList ++ "econt-bg.tk".toList) =
        calculate_score "econt-bg.tk".toList :=
  ⟨by decide, www_prefix_invariant "econt-bg.tk".toList (by decide)⟩

theorem typoPartEntry_fields (b part : List Char) (m : TypoMatch)
    (h : typoPartEntry b part = some m) : m.brand = b ∧ m.typo = part := by
  simp only [typoPartEntry] at h
  split at h
  · exact absurd h (by simp)
  · split at h
    · rw [Option.some.injEq] at h
      rw [← h]
      exact ⟨rfl, rfl⟩
    · exact absurd h (by simp)

theorem mem_typo_mapped (b : List Char) (parts : List (List Char))
    (x : List Char × List Char)
    (hx : x ∈ (if b.length < 4 then ([] : List TypoMatch)
        else parts.filterMap (typoPartEntry b)).map fun e => (e.brand, e.typo)) :
    x.1 = b := by
  by_cases hlen : b.length < 4
  · simp [hlen] at hx
  · simp only [hlen, if_false, List.mem_map, List.mem_filterMap] at hx
    obtain ⟨m, ⟨part, hpart, hm⟩, rfl⟩ := hx
    exact (typoPartEntry_fields b part m hm).1

/-- C6 amended: the entries of `detect_typosquatting` are in bijection with
the matching (brand occurrence, label position) pairs, so when the brand
list has no duplicates and the labels of the split domain are pairwise
distinct, no two entries share the same (brand, typo) pair.  (With a
repeated label — or a repeated brand — the same pair is recorded once per
occurrence, which is the counterexample.) -/
theorem typosquat_pairs_nodup (d : List Char) (brands : List (List Char))
    (hb : brands.Nodup) (hp : (splitSep (normDomain d)).Nodup) :
    (((detect_typosquatting d brands).2.map fun e => (e.brand, e.typo)).Nodup) := by
  have hrep : (detect_typosquatting d brands).2 =
      brands.flatMap (fun b => if b.length < 4 then []
        else (splitSep (normDomain d)).filterMap (typoPartEntry b)) := rfl
  rw [hrep, List.map_flatMap]
  rw [List.nodup_flatMap]
  constructor
  · intro b hbmem
    by_cases hlen : b.length < 4
    · simp [hlen]
    · simp only [hlen, if_neg, if_false]
      rw [List.map_filterMap]
      refine List.Nodup.filterMap ?_ hp
      intro a a' x hx hx'
      simp only [Option.mem_def, Option.map_eq_some'] at hx hx'
      obtain ⟨m, hm, rfl⟩ := hx
      obtain ⟨m', hm', hmx⟩ := hx'
      have e1 := (typoPartEntry_fields b a m hm).2
      have e2 := (typoPartEntry_fields b a' m' hm').2
      have : m'.typo = m.typo := congrArg Prod.snd hmx
      rw [← e1, ← e2, this]
  · refine hb.imp ?_
    intro b b' hne
    intro S hS hS'
    exact hne ((mem_typo_mapped b _ S hS).symm.trans (mem_typo_mapped b' _ S hS'))

/-- Witness for C6 amended: on `spedy.bg-pv.cfd` with the single brand
`speedy` both Nodup hypotheses hold and the recorded pairs are unique. -/
theorem typosquat_pairs_nodup_witness :
    (["speedy".toList] : List (List Char)).Nodup ∧
      (splitSep (normDomain "spedy.bg-pv.cfd".toList)).Nodup ∧
      (((detect_typosquatting "spedy.bg-pv.cfd".toList ["speedy".toList]).2.map
          fun e => (e.brand, e.typo)).Nodup) :=
  ⟨by decide, by decide,
    typosquat_pairs_nodup "spedy.bg-pv.cfd".toList ["speedy".toList]
      (by decide) (by decide)⟩

theorem homoglyphPartHit_iff (b part : List Char) :
    homoglyphPartHit b part = true ↔
      3 ≤ part.length ∧ natDiff part.length b.length ≤ 2 ∧
      ((allAscii part = false ∧
          (normalize_homoglyphs part = b ∨
            (4 ≤ (normalize_homoglyphs part).length ∧
              normalize_homoglyphs part <:+: b))) ∨
        (part.contains '0' = true ∧ replaceZero part = b)) := by
  unfold homoglyphPartHit
  split
  · rename_i hguard
    simp only [Bool.or_eq_true, decide_eq_true_eq] at hguard
    constructor
    · intro h
      exact absurd h (by simp)
    · rintro ⟨h1, h2, -⟩
      rcases hguard with hg | hg <;> omega
  · rename_i hguard
    simp only [Bool.or_eq_true, decide_eq_true_eq, not_or, not_lt] at hguard
    simp only [Bool.or_eq_true, Bool.and_eq_true, Bool.not_eq_true',
      beq_iff_eq, decide_eq_true_eq, ← isSubstring_iff]
    constructor
    · intro h
      exact ⟨hguard.1, hguard.2, h⟩
    · rintro ⟨-, -, h⟩
      exact h

/-- C4 amended: `detect_homoglyphs` reports some label exactly when a label
of length ≥ 3, within ±2 of a brand's length, either (a) contains a
non-ASCII character and its table-normalization equals the brand or has
length ≥ 4 and is a substring of the brand, or (b) contains a literal `0`
and equals the brand after replacing `0` with `o`; the two concrete
examples behave as claimed. -/
theorem homoglyph_characterization :
    (∀ (d : List Char) (brands : List (List Char)),
      (detect_homoglyphs d brands).1 = true ↔
        ∃ b ∈ brands, ∃ part ∈ splitSep (normDomain d),
          3 ≤ part.length ∧ natDiff part.length b.length ≤ 2 ∧
          ((allAscii part = false ∧
              (normalize_homoglyphs part = b ∨
                (4 ≤ (normalize_homoglyphs part).length ∧
                  normalize_homoglyphs part <:+: b))) ∨
            (part.contains '0' = true ∧ replaceZero part = b))) ∧
    detect_homoglyphs "ec0nt-pay.tk".toList ["econt".toList] =
      (true, ["ec0nt".toList]) ∧
    detect_homoglyphs "есоnt.cfd".toList ["econt".toList] =
      (true, ["есоnt".toList]) := by
  refine ⟨?_, by decide, by decide⟩
  intro d brands
  have h0 : (detect_homoglyphs d brands).1 =
      !(brands.filterMap fun b =>
          (splitSep (normDomain d)).find? (homoglyphPartHit b)).isEmpty := rfl
  rw [h0]
  constructor
  · intro h
    have hne : (brands.filterMap fun b =>
        (splitSep (normDomain d)).find? (homoglyphPartHit b)) ≠ [] := by
      simpa using h
    rw [ne_eq, List.filterMap_eq_nil_iff] at hne
    push_neg at hne
    obtain ⟨b, hbmem, hfind⟩ := hne
    have hsome := Option.ne_none_iff_isSome.mp hfind
    obtain ⟨part, hpmem, hhit⟩ := List.find?_isSome.mp hsome
    exact ⟨b, hbmem, part, hpmem, (homoglyphPartHit_iff b part).mp hhit⟩
  · rintro ⟨b, hbmem, part, hpmem, hcond⟩
    have hsome : ((splitSep (normDomain d)).find? (homoglyphPartHit b)).isSome :=
      List.find?_isSome.mpr ⟨part, hpmem, (homoglyphPartHit_iff b part).mpr hcond⟩
    have hne : (brands.filterMap fun b =>
        (splitSep (normDomain d)).find? (homoglyphPartHit b)) ≠ [] := by
      rw [ne_eq, List.filterMap_eq_nil_iff]
      push_neg
      exact ⟨b, hbmem, Option.ne_none_iff_isSome.mpr hsome⟩
    simpa using hne

theorem hasAdjacentSwap_iff (o t : List Char) :
    hasAdjacentSwap o t = true ↔
      ∃ i a c', o[i]? = some a ∧ o[i + 1]? = some c' ∧
        t[i]? = some c' ∧ t[i + 1]? = some a := by
  induction o generalizing t with
  | nil => simp [hasAdjacentSwap]
  | cons x o ih =>
    cases o with
    | nil =>
      constructor
      · intro h
        rw [show hasAdjacentSwap [x] t = false from by
          cases t with
          | nil => rfl
          | cons c t' => cases t' <;> rfl] at h
        exact absurd h (by simp)
      · rintro ⟨i, a, c', h1, h2, h3, h4⟩
        rcases i with _ | i
        · simp at h2
        · simp at h1
    | cons y o' =>
      cases t with
      | nil =>
        constructor
        · intro h
          exact absurd h (by simp [hasAdjacentSwap])
        · rintro ⟨i, a, c', h1, h2, h3, h4⟩
          simp at h3
      | cons c t' =>
        cases t' with
        | nil =>
          constructor
          · intro h
            exact absurd h (by simp [hasAdjacentSwap])
          · rintro ⟨i, a, c', h1, h2, h3, h4⟩
            rcases i with _ | i
            · simp at h4
            · simp at h3
        | cons dd t'' =>
          rw [show hasAdjacentSwap (x :: y :: o') (c :: dd :: t'') =
            ((x = dd && y = c) || hasAdjacentSwap (y :: o') (dd :: t'')) from rfl]
          simp only [Bool.or_eq_true, Bool.and_eq_true, decide_eq_true_eq,
            ih (dd :: t'')]
          constructor
          · rintro (⟨rfl, rfl⟩ | ⟨i, a, c', h1, h2, h3, h4⟩)
            · exact ⟨0, x, y, by simp, by simp, by simp, by simp⟩
            · exact ⟨i + 1, a, c', by simpa using h1, by simpa using h2,
                by simpa using h3, by simpa using h4⟩
          · rintro ⟨i, a, c', h1, h2, h3, h4⟩
            rcases i with _ | i
            · left
              simp only [List.getElem?_cons_zero, List.getElem?_cons_succ,
                Option.some.injEq] at h1 h2 h3 h4
              constructor
              · rw [h1, ← h4]
              · rw [h2, ← h3]
            · right
              exact ⟨i, a, c', by simpa using h1, by simpa using h2,
                by simpa using h3, by simpa using h4⟩

theorem typoPartEntry_some_iff (b part : List Char) (m : TypoMatch) :
    typoPartEntry b part = some m ↔
      3 ≤ part.length ∧ 0 < levenshtein_distance part b ∧
      levenshtein_distance part b ≤ 2 ∧ natDiff part.length b.length ≤ 2 ∧
      part ≠ b ∧
      m = ⟨b, part, levenshtein_distance part b, classify_typo_type b part⟩ := by
  simp only [typoPartEntry]
  split
  · rename_i hlen
    constructor
    · intro h
      exact absurd h (by simp)
    · rintro ⟨h3, -⟩
      omega
  · rename_i hlen
    split
    · rename_i hcond
      simp only [Bool.and_eq_true, decide_eq_true_eq, bne_iff_ne] at hcond
      obtain ⟨⟨⟨h1, h2⟩, h3⟩, h4⟩ := hcond
      simp only [Option.some.injEq]
      constructor
      · intro h
        exact ⟨by omega, h1, h2, h3, h4, h.symm⟩
      · rintro ⟨-, -, -, -, -, rfl⟩
        rfl
    · rename_i hcond
      constructor
      · intro h
        exact absurd h (by simp)
      · rintro ⟨-, h1, h2, h3, h4, -⟩
        exact absurd (by simp [h1, h2, h3, h4] :
          (decide (0 < levenshtein_distance part b) &&
            decide (levenshtein_distance part b ≤ 2) &&
            decide (natDiff part.length b.length ≤ 2) && (part != b)) = true) hcond

/-- C5 amended: a typosquat entry is recorded exactly for brands of length
≥ 4 and labels of length ≥ 3 with edit distance in (0, 2], length gap ≤ 2
and label ≠ brand; the kind is `missing_char`/`extra_char` by length, and
for equal lengths `swapped_chars` exactly when exactly two positions differ
and some adjacent index pair is mirrored between brand and label (which
also accepts a mirrored pair of unchanged equal characters, e.g. a double
letter), else `substitution`; the `spedy.bg-pv.cfd` example holds. -/
theorem typosquat_characterization :
    (∀ (d : List Char) (brands : List (List Char)) (m : TypoMatch),
      m ∈ (detect_typosquatting d brands).2 ↔
        ∃ b ∈ brands, 4 ≤ b.length ∧ ∃ part ∈ splitSep (normDomain d),
          3 ≤ part.length ∧ 0 < levenshtein_distance part b ∧
          levenshtein_distance part b ≤ 2 ∧ natDiff part.length b.length ≤ 2 ∧
          part ≠ b ∧
          m = ⟨b, part, levenshtein_distance part b, classify_typo_type b part⟩) ∧
    (∀ o t : List Char, classify_typo_type o t =
      if t.length < o.length then "missing_char".toList
      else if o.length < t.length then "extra_char".toList
      else if ((o.zip t).filter fun q => q.1 ≠ q.2).length = 2 ∧
          hasAdjacentSwap o t = true then "swapped_chars".toList
      else "substitution".toList) ∧
    (∀ o t : List Char, hasAdjacentSwap o t = true ↔
      ∃ i a c', o[i]? = some a ∧ o[i + 1]? = some c' ∧
        t[i]? = some c' ∧ t[i + 1]? = some a) ∧
    detect_typosquatting "spedy.bg-pv.cfd".toList ["speedy".toList] =
      (true, [⟨"speedy".toList, "spedy".toList, 1, "missing_char".toList⟩]) := by
  refine ⟨?_, ?_, hasAdjacentSwap_iff, by decide⟩
  · intro d brands m
    have h0 : (detect_typosquatting d brands).2 =
        brands.flatMap fun b => if b.length < 4 then []
          else (splitSep (normDomain d)).filterMap (typoPartEntry b) := rfl
    rw [h0, List.mem_flatMap]
    constructor
    · rintro ⟨b, hb, hm⟩
      by_cases hlen : b.length < 4
      · rw [if_pos hlen] at hm
        exact absurd hm (by simp)
      · rw [if_neg hlen] at hm
        obtain ⟨part, hp, hsome⟩ := List.mem_filterMap.mp hm
        obtain ⟨h3, hrest⟩ := (typoPartEntry_some_iff b part m).mp hsome
        exact ⟨b, hb, by omega, part, hp, h3, hrest⟩
    · rintro ⟨b, hb, h4, part, hp, hcond⟩
      refine ⟨b, hb, ?_⟩
      rw [if_neg (by omega)]
      exact List.mem_filterMap.mpr
        ⟨part, hp, (typoPartEntry_some_iff b part m).mpr hcond⟩
  · intro o t
    by_cases h1 : t.length < o.length
    · simp [classify_typo_type, h1]
    · by_cases h2 : o.length < t.length
      · simp [classify_typo_type, h1, h2]
      · rcases Bool.eq_false_or_eq_true (hasAdjacentSwap o t) with hs | hs <;>
        by_cases hd : ((o.zip t).filter fun q => q.1 ≠ q.2).length = 2 <;>
          simp [classify_typo_type, h1, h2, hd, hs]

theorem splitOnPred_ne_nil (p : Char → Bool) (l : List Char) :
    splitOnPred p l ≠ [] := by
  cases l with
  | nil => simp [splitOnPred]
  | cons c rest =>
    cases h : splitOnPred p rest with
    | nil => simp [splitOnPred, h]
    | cons s ss =>
      rcases Bool.eq_false_or_eq_true (p c) with hc | hc <;>
        simp [splitOnPred, h, hc]

theorem splitOnPred_sep_cons (p : Char → Bool) (x : Char) (u : List Char)
    (hx : p x = true) : splitOnPred p (x :: u) = [] :: splitOnPred p u := by
  cases h : splitOnPred p u with
  | nil => exact absurd h (splitOnPred_ne_nil p u)
  | cons s ss => simp [splitOnPred, h, hx]

theorem splitOnPred_nonsep_cons (p : Char → Bool) (c : Char) (rest s₁ : List Char)
    (ss₁ : List (List Char)) (hc : p c = false)
    (hr : splitOnPred p rest = s₁ :: ss₁) :
    splitOnPred p (c :: rest) = (c :: s₁) :: ss₁ := by
  simp [splitOnPred, hr, hc]

theorem splitOnPred_append_nonsep (p : Char → Bool) (t u s : List Char)
    (ss : List (List Char)) (ht : ∀ ch ∈ t, p ch = false)
    (hu : splitOnPred p u = s :: ss) :
    splitOnPred p (t ++ u) = (t ++ s) :: ss := by
  induction t with
  | nil => simpa using hu
  | cons c t ih =>
    have hc : p c = false := ht c (by simp)
    have ih' := ih fun ch hch => ht ch (by simp [hch])
    simp [splitOnPred, ih', hc]

theorem splitOnPred_append_sep (p : Char → Bool) (a : List Char) (x : Char)
    (u : List Char) (hx : p x = true) :
    splitOnPred p (a ++ x :: u) = splitOnPred p a ++ splitOnPred p u := by
  induction a with
  | nil =>
    simp only [List.nil_append]
    rw [splitOnPred_sep_cons p x u hx]
    rfl
  | cons c a ih =>
    cases ha : splitOnPred p a with
    | nil => exact absurd ha (splitOnPred_ne_nil p a)
    | cons s₀ ss₀ =>
      rw [ha] at ih
      rcases Bool.eq_false_or_eq_true (p c) with hc | hc <;>
        simp [splitOnPred, ih, ha, hc]

theorem splitOnPred_head_decomp (p : Char → Bool) (l s : List Char)
    (ss : List (List Char)) (h : splitOnPred p l = s :: ss) :
    (∀ ch ∈ s, p ch = false) ∧
      ((l = s ∧ ss = []) ∨
        ∃ x u, p x = true ∧ l = s ++ x :: u ∧ splitOnPred p u = ss) := by
  induction l generalizing s ss with
  | nil =>
    simp only [splitOnPred, List.cons.injEq] at h
    obtain ⟨h1, h2⟩ := h
    subst h1
    subst h2
    simp
  | cons c rest ih =>
    cases hr : splitOnPred p rest with
    | nil => exact absurd hr (splitOnPred_ne_nil p rest)
    | cons s₁ ss₁ =>
      rcases Bool.eq_false_or_eq_true (p c) with hc | hc
      · rw [splitOnPred_sep_cons p c rest hc, hr] at h
        injection h with h1 h2
        subst h2
        subst h1
        exact ⟨by simp, Or.inr ⟨c, rest, hc, by simp, hr⟩⟩
      · rw [splitOnPred_nonsep_cons p c rest s₁ ss₁ hc hr] at h
        injection h with h1 h2
        subst h2
        subst h1
        obtain ⟨hsep₁, hcase₁⟩ := ih s₁ ss₁ hr
        constructor
        · intro ch hch
          rcases List.mem_cons.mp hch with rfl | hch'
          · exact hc
          · exact hsep₁ ch hch'
        · rcases hcase₁ with ⟨rfl, rfl⟩ | ⟨x, u, hx, hrest, hss⟩
          · exact Or.inl ⟨rfl, rfl⟩
          · refine Or.inr ⟨x, u, hx, ?_, hss⟩
            rw [hrest]
            rfl

/-- The boundary condition a reported brand satisfies: bounded on the left
by start-of-string, a dot, or a hyphen, and on the right by a dot, a
hyphen, the end of the string, or a single newline that ends the string
(the position `re.search`'s `$` accepts without `re.MULTILINE`). -/
def BoundaryOccurs (b check : List Char) : Prop :=
  ∃ pre suf : List Char,
    check = pre ++ b ++ suf ∧
    (pre = [] ∨ (∃ q, pre = q ++ ['.']) ∨ (∃ q, pre = q ++ ['-'])) ∧
    (suf = [] ∨ suf = ['\n'] ∨ (∃ s, suf = '.' :: s) ∨ (∃ s, suf = '-' :: s))

theorem brandBoundaryMatch_iff (b check : List Char) :
    brandBoundaryMatch b check = true ↔ BoundaryOccurs b check := by
  unfold brandBoundaryMatch BoundaryOccurs
  simp only [Bool.or_eq_true, or_assoc, List.isPrefixOf_iff_prefix,
    List.isSuffixOf_iff_suffix, isSubstring_iff, beq_iff_eq]
  constructor
  · rintro (h | h | h | h | h | h | h | h | h | h | h | h)
    · obtain ⟨tl, htl⟩ := h
      exact ⟨[], '.' :: tl, by simp [← htl], Or.inl rfl,
        Or.inr (Or.inr (Or.inl ⟨tl, rfl⟩))⟩
    · obtain ⟨tl, htl⟩ := h
      exact ⟨[], '-' :: tl, by simp [← htl], Or.inl rfl,
        Or.inr (Or.inr (Or.inr ⟨tl, rfl⟩))⟩
    · exact ⟨[], [], by simp [h], Or.inl rfl, Or.inl rfl⟩
    · exact ⟨[], ['\n'], by simp [h], Or.inl rfl, Or.inr (Or.inl rfl)⟩
    · obtain ⟨pr, sf, hh⟩ := h
      exact ⟨pr ++ ['.'], '.' :: sf, by simp [← hh],
        Or.inr (Or.inl ⟨pr, rfl⟩), Or.inr (Or.inr (Or.inl ⟨sf, rfl⟩))⟩
    · obtain ⟨pr, sf, hh⟩ := h
      exact ⟨pr ++ ['.'], '-' :: sf, by simp [← hh],
        Or.inr (Or.inl ⟨pr, rfl⟩), Or.inr (Or.inr (Or.inr ⟨sf, rfl⟩))⟩
    · obtain ⟨pr, hh⟩ := h
      exact ⟨pr ++ ['.'], [], by simp [← hh],
        Or.inr (Or.inl ⟨pr, rfl⟩), Or.inl rfl⟩
    · obtain ⟨pr, hh⟩ := h
      exact ⟨pr ++ ['.'], ['\n'], by simp [← hh],
        Or.inr (Or.inl ⟨pr, rfl⟩), Or.inr (Or.inl rfl)⟩
    · obtain ⟨pr, sf, hh⟩ := h
      exact ⟨pr ++ ['-'], '.' :: sf, by simp [← hh],
        Or.inr (Or.inr ⟨pr, rfl⟩), Or.inr (Or.inr (Or.inl ⟨sf, rfl⟩))⟩
    · obtain ⟨pr, sf, hh⟩ := h
      exact ⟨pr ++ ['-'], '-' :: sf, by simp [← hh],
        Or.inr (Or.inr ⟨pr, rfl⟩), Or.inr (Or.inr (Or.inr ⟨sf, rfl⟩))⟩
    · obtain ⟨pr, hh⟩ := h
      exact ⟨pr ++ ['-'], [], by simp [← hh],
        Or.inr (Or.inr ⟨pr, rfl⟩), Or.inl rfl⟩
    · obtain ⟨pr, hh⟩ := h
      exact ⟨pr ++ ['-'], ['\n'], by simp [← hh],
        Or.inr (Or.inr ⟨pr, rfl⟩), Or.inr (Or.inl rfl)⟩
  · rintro ⟨pre, suf, rfl, hpre, hsuf⟩
    rcases hpre with rfl | ⟨q, rfl⟩ | ⟨q, rfl⟩ <;>
      rcases hsuf with rfl | rfl | ⟨s, rfl⟩ | ⟨s, rfl⟩
    · exact Or.inr (Or.inr (Or.inl (by simp)))
    · exact Or.inr (Or.inr (Or.inr (Or.inl (by simp))))
    · exact Or.inl ⟨s, by simp⟩
    · exact Or.inr (Or.inl ⟨s, by simp⟩)
    · exact Or.inr (Or.inr (Or.inr (Or.inr (Or.inr (Or.inr (Or.inl
        ⟨q, by simp⟩))))))
    · exact Or.inr (Or.inr (Or.inr (Or.inr (Or.inr (Or.inr (Or.inr (Or.inl
        ⟨q, by simp⟩)))))))
    · exact Or.inr (Or.inr (Or.inr (Or.inr (Or.inl ⟨q, s, by simp⟩))))
    · exact Or.inr (Or.inr (Or.inr (Or.inr (Or.inr (Or.inl ⟨q, s, by simp⟩)))))
    · exact Or.inr (Or.inr (Or.inr (Or.inr (Or.inr (Or.inr (Or.inr (Or.inr
        (Or.inr (Or.inr (Or.inl ⟨q, by simp⟩))))))))))
    · exact Or.inr (Or.inr (Or.inr (Or.inr (Or.inr (Or.inr (Or.inr (Or.inr
        (Or.inr (Or.inr (Or.inr ⟨q, by simp⟩))))))))))
    · exact Or.inr (Or.inr (Or.inr (Or.inr (Or.inr (Or.inr (Or.inr (Or.inr
        (Or.inl ⟨q, s, by simp⟩))))))))
    · exact Or.inr (Or.inr (Or.inr (Or.inr (Or.inr (Or.inr (Or.inr (Or.inr
        (Or.inr (Or.inl ⟨q, s, by simp⟩)))))))))

theorem boundary_to_mem_splitSep (b l : List Char) (hb : b ≠ [])
    (hsep : ∀ ch ∈ b, isSepChar ch = false) (hnl : ¬ (['\n'] <:+ l))
    (h : BoundaryOccurs b l) :
    b ∈ splitSep l := by
  obtain ⟨pre, suf, rfl, hpre, hsuf⟩ := h
  have hsuf' : suf = [] ∨ (∃ s, suf = '.' :: s) ∨ (∃ s, suf = '-' :: s) := by
    rcases hsuf with rfl | rfl | hs | hs
    · exact Or.inl rfl
    · exact absurd ⟨pre ++ b, by simp⟩ hnl
    · exact Or.inr (Or.inl hs)
    · exact Or.inr (Or.inr hs)
  have hmem : b ∈ splitSep (b ++ suf) := by
    rcases hsuf' with rfl | ⟨s, rfl⟩ | ⟨s, rfl⟩
    · have h1 := splitOnPred_append_nonsep isSepChar b [] [] [] hsep rfl
      unfold splitSep
      rw [h1]
      simp
    · have h1 := splitOnPred_append_nonsep isSepChar b ('.' :: s) []
        (splitOnPred isSepChar s) hsep
        (splitOnPred_sep_cons isSepChar '.' s (by decide))
      unfold splitSep
      rw [h1]
      simp
    · have h1 := splitOnPred_append_nonsep isSepChar b ('-' :: s) []
        (splitOnPred isSepChar s) hsep
        (splitOnPred_sep_cons isSepChar '-' s (by decide))
      unfold splitSep
      rw [h1]
      simp
  rcases hpre with rfl | ⟨q, rfl⟩ | ⟨q, rfl⟩
  · simpa using hmem
  · unfold splitSep
    rw [show (q ++ ['.']) ++ b ++ suf = q ++ '.' :: (b ++ suf) from by simp]
    rw [splitOnPred_append_sep isSepChar q '.' (b ++ suf) (by decide)]
    exact List.mem_append.mpr (Or.inr hmem)
  · unfold splitSep
    rw [show (q ++ ['-']) ++ b ++ suf = q ++ '-' :: (b ++ suf) from by simp]
    rw [splitOnPred_append_sep isSepChar q '-' (b ++ suf) (by decide)]
    exact List.mem_append.mpr (Or.inr hmem)

theorem mem_splitSep_to_boundary (b : List Char) (hb : b ≠ [])
    (hsep : ∀ ch ∈ b, isSepChar ch = false) :
    ∀ n l, l.length ≤ n → b ∈ splitSep l → BoundaryOccurs b l := by
  intro n
  induction n with
  | zero =>
    intro l hl hmem
    cases l with
    | nil =>
      simp [splitSep, splitOnPred] at hmem
      exact absurd hmem hb
    | cons c rest => simp at hl
  | succ n ih =>
    intro l hl hmem
    obtain ⟨s, ss, hsplit⟩ : ∃ s ss, splitSep l = s :: ss := by
      cases h : splitSep l with
      | nil => exact absurd h (splitOnPred_ne_nil isSepChar l)
      | cons s ss => exact ⟨s, ss, rfl⟩
    rw [hsplit] at hmem
    obtain ⟨hsep0, hcase⟩ := splitOnPred_head_decomp isSepChar l s ss hsplit
    rcases List.mem_cons.mp hmem with rfl | hmem'
    · rcases hcase with ⟨rfl, -⟩ | ⟨x, u, hx, rfl, -⟩
      · exact ⟨[], [], by simp, Or.inl rfl, Or.inl rfl⟩
      · refine ⟨[], x :: u, by simp, Or.inl rfl, ?_⟩
        have hx' : x = '.' ∨ x = '-' := by
          simpa [isSepChar, decide_eq_true_eq] using hx
        rcases hx' with rfl | rfl
        · exact Or.inr (Or.inr (Or.inl ⟨u, rfl⟩))
        · exact Or.inr (Or.inr (Or.inr ⟨u, rfl⟩))
    · rcases hcase with ⟨rfl, rfl⟩ | ⟨x, u, hx, rfl, hu⟩
      · exact absurd hmem' (by simp)
      · have hlen : u.length ≤ n := by
          rw [List.length_append, List.length_cons] at hl
          omega
        have hbnd := ih u hlen (by unfold splitSep; rw [hu]; exact hmem')
        obtain ⟨pre, suf, hu2, hpre, hsuf⟩ := hbnd
        refine ⟨s ++ x :: pre, suf, ?_, ?_, hsuf⟩
        · rw [hu2]
          simp
        · have hx' : x = '.' ∨ x = '-' := by
            simpa [isSepChar, decide_eq_true_eq] using hx
          rcases hpre with rfl | ⟨q, rfl⟩ | ⟨q, rfl⟩
          · rcases hx' with rfl | rfl
            · exact Or.inr (Or.inl ⟨s, by simp⟩)
            · exact Or.inr (Or.inr ⟨s, by simp⟩)
          · exact Or.inr (Or.inl ⟨s ++ x :: q, by simp⟩)
          · exact Or.inr (Or.inr ⟨s ++ x :: q, by simp⟩)

theorem mem_splitSep_iff_boundary (b l : List Char) (hb : b ≠ [])
    (hsep : ∀ ch ∈ b, isSepChar ch = false) (hnl : ¬ (['\n'] <:+ l)) :
    b ∈ splitSep l ↔ BoundaryOccurs b l :=
  ⟨mem_splitSep_to_boundary b hb hsep l.length l le_rfl,
   boundary_to_mem_splitSep b l hb hsep hnl⟩

/-- C3 amended: a brand is reported iff it occurs in the lower-cased
`www.`-stripped domain bounded on the left by start-of-string, a dot or a
hyphen, and on the right by a dot, a hyphen, the end of the string, or a
single trailing newline (`re.search`'s `$` also matches just before a
newline that ends the string, so `econt` is reported on the domain
`"econt\n"`); for brands that themselves contain no separator (all but
`bg-post`), on domains whose normalized form does not end in a newline,
this is the same as occurring as a whole label of the `.`/`-` split, and
both claimed examples hold. -/
theorem brand_match_characterization :
    (∀ d b : List Char, b ∈ (contains_brand_impersonation d).2 ↔
        b ∈ BRAND_KEYWORDS ∧ BoundaryOccurs b (normDomain d)) ∧
    (∀ d b : List Char, b ∈ BRAND_KEYWORDS → b ≠ [] →
        (∀ ch ∈ b, isSepChar ch = false) → ¬ (['\n'] <:+ normDomain d) →
        (b ∈ (contains_brand_impersonation d).2 ↔
          b ∈ splitSep (normDomain d))) ∧
    (contains_brand_impersonation "econt\n".toList).2 = ["econt".toList] ∧
    contains_brand_impersonation "content.example.cfd".toList = (false, []) ∧
    (contains_brand_impersonation "speedy-bg.cfd".toList).2 =
      ["speedy".toList] := by
  have hmain : ∀ d b : List Char, b ∈ (contains_brand_impersonation d).2 ↔
      b ∈ BRAND_KEYWORDS ∧ BoundaryOccurs b (normDomain d) := by
    intro d b
    have h0 : (contains_brand_impersonation d).2 =
        BRAND_KEYWORDS.filter fun br => brandBoundaryMatch br (normDomain d) := rfl
    rw [h0, List.mem_filter, brandBoundaryMatch_iff]
  refine ⟨hmain, ?_, by decide, by decide, by decide⟩
  intro d b hreg hb hsep hnl
  rw [hmain d b, mem_splitSep_iff_boundary b (normDomain d) hb hsep hnl]
  exact ⟨fun h => h.2, fun h => ⟨hreg, h⟩⟩

/-- Witness for C3 amended: `speedy` is separator-free, `speedy-bg.cfd`
does not end in a newline, and on it brand reporting and whole-label
membership coincide. -/
theorem brand_match_characterization_witness :
    ("speedy".toList ∈ BRAND_KEYWORDS ∧ "speedy".toList ≠ [] ∧
      (∀ ch ∈ "speedy".toList, isSepChar ch = false) ∧
      ¬ (['\n'] <:+ normDomain "speedy-bg.cfd".toList)) ∧
    ("speedy".toList ∈ (contains_brand_impersonation "speedy-bg.cfd".toList).2 ↔
      "speedy".toList ∈ splitSep (normDomain "speedy-bg.cfd".toList)) :=
  ⟨⟨by decide, by decide, by decide, by decide⟩,
    brand_match_characterization.2.1 "speedy-bg.cfd".toList "speedy".toList
      (by decide) (by decide) (by decide) (by decide)⟩

end BgPhish
